import Mathlib

/-!
Verification of the quantum echo simulation (src/quantum_echo.py).

The program builds single-qubit rotation circuits with qiskit, composes the
echo circuit U† · V(δ) · U with U(θ) the three-gate forward evolution
rx(θ), rz(θ/2), rx(θ/2), evolves the computational basis state |0⟩ = [1, 0],
and reports the return probability |⟨0|U† V U|0⟩|².

The shallow embedding below represents each qiskit gate by its 2×2 complex
matrix in the qiskit convention:
  rx(a) = [[cos(a/2), -i·sin(a/2)], [-i·sin(a/2), cos(a/2)]]
  rz(a) = [[exp(-i·a/2), 0], [0, exp(i·a/2)]]
A circuit that applies gates g₁, g₂, …, gₙ in that temporal order has net
matrix gₙ ⬝ … ⬝ g₂ ⬝ g₁ (first-applied gate rightmost), and
`QuantumCircuit.inverse()` reverses the gate list and negates each angle.
-/

namespace QuantumEcho

open scoped Matrix

/-- Qiskit `rx(a)` gate matrix: rotation about the X axis by angle `a`. -/
noncomputable def rotX (a : ℝ) : Matrix (Fin 2) (Fin 2) ℂ :=
  !![(Real.cos (a / 2) : ℂ), -Complex.I * (Real.sin (a / 2) : ℂ);
     -Complex.I * (Real.sin (a / 2) : ℂ), (Real.cos (a / 2) : ℂ)]

/-- Qiskit `rz(a)` gate matrix: rotation about the Z axis by angle `a`. -/
noncomputable def rotZ (a : ℝ) : Matrix (Fin 2) (Fin 2) ℂ :=
  !![Complex.exp (-(Complex.I * ((a : ℂ) / 2))), 0;
     0, Complex.exp (Complex.I * ((a : ℂ) / 2))]

/-- Net matrix of `forward_circuit(theta)`: the circuit applies `rx(theta)`,
then `rz(theta/2)`, then `rx(theta/2)`; the first-applied gate is the
rightmost factor of the matrix product. -/
noncomputable def forward_circuit (θ : ℝ) : Matrix (Fin 2) (Fin 2) ℂ :=
  rotX (θ / 2) * rotZ (θ / 2) * rotX θ

/-- Net matrix of `forward_circuit(theta).inverse()` as qiskit computes it:
the gate list is reversed and every angle negated, so the circuit applies
`rx(-theta/2)`, then `rz(-theta/2)`, then `rx(-theta)`. -/
noncomputable def forward_inverse (θ : ℝ) : Matrix (Fin 2) (Fin 2) ℂ :=
  rotX (-θ) * rotZ (-(θ / 2)) * rotX (-(θ / 2))

/-- Net matrix of `perturbation(delta)`: a single `rz(delta)` gate. -/
noncomputable def perturbation (δ : ℝ) : Matrix (Fin 2) (Fin 2) ℂ :=
  rotZ δ

/-- Net matrix of `build_echo_circuit(theta, delta)`: the circuit applies
U(θ), then V(δ), then U(θ)†, hence the matrix product U† ⬝ V ⬝ U. -/
noncomputable def build_echo_circuit (θ δ : ℝ) : Matrix (Fin 2) (Fin 2) ℂ :=
  forward_inverse θ * perturbation δ * forward_circuit θ

/-- The fixed reference state |0⟩ = [1, 0] used by
`Statevector.from_instruction`, which starts simulation from |0⟩. -/
def refState : Fin 2 → ℂ := ![1, 0]

/-- `echo_amplitude(theta, delta)`: evolve |0⟩ through the echo circuit and
return the squared magnitude of the first component of the state vector. -/
noncomputable def echo_amplitude (θ δ : ℝ) : ℝ :=
  Complex.abs ((build_echo_circuit θ δ *ᵥ refState) 0) ^ 2

/-- The sweep list comprehension
`echoes = [echo_amplitude(theta, d) for d in deltas]`. -/
noncomputable def echoes (θ : ℝ) (deltas : List ℝ) : List ℝ :=
  deltas.map (fun d => echo_amplitude θ d)

/-- The (δ, amplitude) pairs the sweep hands to the plotting call
`plt.plot(deltas, echoes)`, which pairs the two lists positionally. -/
noncomputable def sweep (θ : ℝ) (deltas : List ℝ) : List (ℝ × ℝ) :=
  deltas.zip (echoes θ deltas)

/-- Spec-side echo matrix, following the specification's words: the
composition `inverse(U(θ)) ⬝ rotationZ(δ) ⬝ U(θ)` where `inverse` is the
conjugate transpose. -/
noncomputable def echoMatrixSpec (θ δ : ℝ) : Matrix (Fin 2) (Fin 2) ℂ :=
  (forward_circuit θ)ᴴ * rotZ δ * forward_circuit θ

/-- Squared Euclidean norm of a two-component complex vector. -/
noncomputable def vnormSq (v : Fin 2 → ℂ) : ℝ :=
  Complex.normSq (v 0) + Complex.normSq (v 1)

/-! ### Helper lemmas about the rotation matrices -/

lemma rotX_zero : rotX 0 = 1 := by
  ext i j
  fin_cases i <;> fin_cases j <;>
    simp [rotX, Matrix.one_apply]

lemma rotZ_zero : rotZ 0 = 1 := by
  ext i j
  fin_cases i <;> fin_cases j <;>
    simp [rotZ, Matrix.one_apply]

lemma rotX_add (a b : ℝ) : rotX (a + b) = rotX a * rotX b := by
  have hx : ((a : ℂ) + (b : ℂ)) / 2 = (a : ℂ) / 2 + (b : ℂ) / 2 := by ring
  ext i j
  fin_cases i <;> fin_cases j
  all_goals simp [rotX, Matrix.mul_apply, Fin.sum_univ_two]
  all_goals simp only [hx, Complex.cos_add, Complex.sin_add]
  all_goals first
    | ring1
    | linear_combination
        (-(Complex.sin ((a : ℂ) / 2) * Complex.sin ((b : ℂ) / 2))) * Complex.I_sq

lemma rotZ_add (a b : ℝ) : rotZ (a + b) = rotZ a * rotZ b := by
  ext i j
  fin_cases i <;> fin_cases j
  all_goals simp [rotZ, Matrix.mul_apply, Fin.sum_univ_two, ← Complex.exp_add]
  all_goals congr 1
  all_goals ring

lemma conj_cos_half (a : ℝ) :
    (starRingEnd ℂ) (Complex.cos ((a : ℂ) / 2)) = Complex.cos ((a : ℂ) / 2) := by
  rw [← Complex.cos_conj]
  congr 1
  rw [map_div₀, Complex.conj_ofReal, map_ofNat]

lemma conj_sin_half (a : ℝ) :
    (starRingEnd ℂ) (Complex.sin ((a : ℂ) / 2)) = Complex.sin ((a : ℂ) / 2) := by
  rw [← Complex.sin_conj]
  congr 1
  rw [map_div₀, Complex.conj_ofReal, map_ofNat]

lemma rotX_conjTranspose (a : ℝ) : (rotX a)ᴴ = rotX (-a) := by
  ext i j
  fin_cases i <;> fin_cases j
  all_goals simp [rotX, Matrix.conjTranspose_apply, Real.cos_neg, Real.sin_neg,
    neg_div, conj_cos_half, conj_sin_half]

lemma rotZ_conjTranspose (a : ℝ) : (rotZ a)ᴴ = rotZ (-a) := by
  ext i j
  fin_cases i <;> fin_cases j
  all_goals simp [rotZ, Matrix.conjTranspose_apply, ← Complex.exp_conj,
    map_neg, map_mul, map_div₀, map_ofNat, Complex.conj_I,
    Complex.conj_ofReal, neg_div]

lemma rotX_conjTranspose_mul_self (a : ℝ) : (rotX a)ᴴ * rotX a = 1 := by
  rw [rotX_conjTranspose, ← rotX_add, neg_add_cancel, rotX_zero]

lemma rotX_mul_conjTranspose_self (a : ℝ) : rotX a * (rotX a)ᴴ = 1 := by
  rw [rotX_conjTranspose, ← rotX_add, add_neg_cancel, rotX_zero]

lemma rotZ_conjTranspose_mul_self (a : ℝ) : (rotZ a)ᴴ * rotZ a = 1 := by
  rw [rotZ_conjTranspose, ← rotZ_add, neg_add_cancel, rotZ_zero]

lemma rotZ_mul_conjTranspose_self (a : ℝ) : rotZ a * (rotZ a)ᴴ = 1 := by
  rw [rotZ_conjTranspose, ← rotZ_add, add_neg_cancel, rotZ_zero]

lemma mul_unitary {A B : Matrix (Fin 2) (Fin 2) ℂ}
    (hA : Aᴴ * A = 1) (hB : Bᴴ * B = 1) : (A * B)ᴴ * (A * B) = 1 := by
  rw [Matrix.conjTranspose_mul, Matrix.mul_assoc, ← Matrix.mul_assoc Aᴴ A B,
    hA, Matrix.one_mul, hB]

lemma mul_unitary' {A B : Matrix (Fin 2) (Fin 2) ℂ}
    (hA : A * Aᴴ = 1) (hB : B * Bᴴ = 1) : (A * B) * (A * B)ᴴ = 1 := by
  rw [Matrix.conjTranspose_mul, Matrix.mul_assoc, ← Matrix.mul_assoc B Bᴴ Aᴴ,
    hB, Matrix.one_mul, hA]

lemma forward_circuit_unitary (θ : ℝ) :
    (forward_circuit θ)ᴴ * forward_circuit θ = 1 :=
  mul_unitary (mul_unitary (rotX_conjTranspose_mul_self _)
    (rotZ_conjTranspose_mul_self _)) (rotX_conjTranspose_mul_self _)

lemma forward_circuit_unitary' (θ : ℝ) :
    forward_circuit θ * (forward_circuit θ)ᴴ = 1 :=
  mul_unitary' (mul_unitary' (rotX_mul_conjTranspose_self _)
    (rotZ_mul_conjTranspose_self _)) (rotX_mul_conjTranspose_self _)

lemma forward_inverse_eq (θ : ℝ) : forward_inverse θ = (forward_circuit θ)ᴴ := by
  rw [forward_circuit, forward_inverse, Matrix.conjTranspose_mul,
    Matrix.conjTranspose_mul, rotX_conjTranspose, rotZ_conjTranspose,
    rotX_conjTranspose, Matrix.mul_assoc]

lemma build_echo_eq_spec (θ δ : ℝ) : build_echo_circuit θ δ = echoMatrixSpec θ δ := by
  rw [build_echo_circuit, echoMatrixSpec, forward_inverse_eq, perturbation]

lemma echo_unitary (θ δ : ℝ) :
    (build_echo_circuit θ δ)ᴴ * build_echo_circuit θ δ = 1 := by
  rw [build_echo_eq_spec, echoMatrixSpec]
  refine mul_unitary (mul_unitary ?_ (rotZ_conjTranspose_mul_self _))
    (forward_circuit_unitary θ)
  rw [Matrix.conjTranspose_conjTranspose]
  exact forward_circuit_unitary' θ

/-! ### Norm preservation -/

lemma star_dotProduct_self (v : Fin 2 → ℂ) :
    star v ⬝ᵥ v = ((vnormSq v : ℝ) : ℂ) := by
  simp [Matrix.dotProduct, Fin.sum_univ_two, vnormSq, Complex.ofReal_add,
    Complex.normSq_eq_conj_mul_self, Complex.star_def]

lemma mulVec_vnormSq (M : Matrix (Fin 2) (Fin 2) ℂ) (hM : Mᴴ * M = 1)
    (v : Fin 2 → ℂ) : vnormSq (M *ᵥ v) = vnormSq v := by
  have key : star (M *ᵥ v) ⬝ᵥ (M *ᵥ v) = star v ⬝ᵥ v := by
    rw [Matrix.star_mulVec, Matrix.dotProduct_mulVec, Matrix.vecMul_vecMul,
      hM, Matrix.vecMul_one]
  have h1 : ((vnormSq (M *ᵥ v) : ℝ) : ℂ) = ((vnormSq v : ℝ) : ℂ) := by
    rw [← star_dotProduct_self, ← star_dotProduct_self, key]
  exact_mod_cast h1

lemma vnormSq_refState : vnormSq refState = 1 := by
  simp [vnormSq, refState]

lemma mulVec_refState (M : Matrix (Fin 2) (Fin 2) ℂ) (i : Fin 2) :
    (M *ᵥ refState) i = M i 0 := by
  simp [Matrix.mulVec, Matrix.dotProduct, Fin.sum_univ_two, refState]

lemma normSq_le_vnormSq (v : Fin 2 → ℂ) : Complex.normSq (v 0) ≤ vnormSq v := by
  rw [vnormSq]
  exact le_add_of_nonneg_right (Complex.normSq_nonneg _)

lemma zip_self_map (l : List ℝ) (f : ℝ → ℝ) :
    l.zip (l.map f) = l.map (fun d => (d, f d)) := by
  induction l with
  | nil => rfl
  | cons d ds ih => simp [ih]

/-! ### Claims -/

/-- C1: for every real theta and delta, `echo_amplitude(theta, delta)` equals
the squared magnitude of the first component of the state obtained by
applying `inverse(U(theta)) * rotationZ(delta) * U(theta)` to the reference
state [1, 0], where `inverse` is the conjugate transpose and U(theta) is the
product rotX(theta/2) * rotZ(theta/2) * rotX(theta) (first-applied gate
rightmost). -/
theorem claim_C1_amplitude_formula (θ δ : ℝ) :
    echo_amplitude θ δ =
      Complex.abs ((((forward_circuit θ)ᴴ * rotZ δ * forward_circuit θ)
        *ᵥ refState) 0) ^ 2 := by
  rw [echo_amplitude, build_echo_eq_spec, echoMatrixSpec]

/-- C2: with zero perturbation the echo circuit is the identity, so the
amplitude is exactly 1 (hence within any tolerance of 1). -/
theorem claim_C2_zero_perturbation (θ : ℝ) : echo_amplitude θ 0 = 1 := by
  have h : build_echo_circuit θ 0 = 1 := by
    rw [build_echo_eq_spec, echoMatrixSpec, rotZ_zero, Matrix.mul_one,
      forward_circuit_unitary]
  rw [echo_amplitude, h]
  simp [Matrix.one_mulVec, refState]

/-- C3: the echo amplitude always lies in the closed interval [0, 1]. -/
theorem claim_C3_range (θ δ : ℝ) :
    0 ≤ echo_amplitude θ δ ∧ echo_amplitude θ δ ≤ 1 := by
  constructor
  · rw [echo_amplitude]
    positivity
  · rw [echo_amplitude, Complex.sq_abs]
    have h := mulVec_vnormSq _ (echo_unitary θ δ) refState
    rw [vnormSq_refState] at h
    calc Complex.normSq ((build_echo_circuit θ δ *ᵥ refState) 0)
        ≤ vnormSq (build_echo_circuit θ δ *ᵥ refState) := normSq_le_vnormSq _
      _ = 1 := h

/-- C4: for every real angle, rotX and rotZ are unitary: each multiplied by
its own conjugate transpose is the identity, exactly. -/
theorem claim_C4_unitarity (a : ℝ) :
    rotX a * (rotX a)ᴴ = 1 ∧ rotZ a * (rotZ a)ᴴ = 1 :=
  ⟨rotX_mul_conjTranspose_self a, rotZ_mul_conjTranspose_self a⟩

/-- C5: rotation angles are additive under composition for each axis, and
the zero-angle rotations are the identity. -/
theorem claim_C5_additivity (a b : ℝ) :
    rotX (a + b) = rotX a * rotX b ∧ rotZ (a + b) = rotZ a * rotZ b ∧
    rotX 0 = 1 ∧ rotZ 0 = 1 :=
  ⟨rotX_add a b, rotZ_add a b, rotX_zero, rotZ_zero⟩

/-- C6: evolving a unit-norm state through a unitary operator preserves the
norm, and in particular the state produced inside `echo_amplitude` has unit
norm. -/
theorem claim_C6_norm_preservation :
    (∀ (U : Matrix (Fin 2) (Fin 2) ℂ) (s : Fin 2 → ℂ),
      Uᴴ * U = 1 → vnormSq s = 1 → vnormSq (U *ᵥ s) = vnormSq s) ∧
    ∀ (θ δ : ℝ), vnormSq (build_echo_circuit θ δ *ᵥ refState) = 1 := by
  constructor
  · intro U s hU _
    exact mulVec_vnormSq U hU s
  · intro θ δ
    rw [mulVec_vnormSq _ (echo_unitary θ δ) refState, vnormSq_refState]

/-- Witness for C6: the identity operator applied to the unit-norm reference
state, with both hypotheses discharged concretely. -/
theorem claim_C6_norm_preservation_witness :
    vnormSq ((1 : Matrix (Fin 2) (Fin 2) ℂ) *ᵥ refState) = vnormSq refState :=
  claim_C6_norm_preservation.1 1 refState (by simp)
    (by simp [vnormSq, refState])

/-- C7: the sweep produces exactly one (delta, amplitude) pair per input
delta, in input order, each amplitude computed independently as
`echo_amplitude(theta, delta)`. -/
theorem claim_C7_sweep_order (θ : ℝ) (deltas : List ℝ) :
    sweep θ deltas = deltas.map (fun d => (d, echo_amplitude θ d)) := by
  rw [sweep, echoes, zip_self_map]

/-- C9: at theta = 0 the forward evolution is the identity, the echo circuit
reduces to a single Z rotation, and the amplitude is 1 for every delta. -/
theorem claim_C9_theta_zero (δ : ℝ) : echo_amplitude 0 δ = 1 := by
  have h0 : (0 : ℝ) / 2 = 0 := by norm_num
  have hF : forward_circuit 0 = 1 := by
    rw [forward_circuit, h0, rotX_zero, rotZ_zero, Matrix.mul_one, Matrix.mul_one]
  have hFi : forward_inverse 0 = 1 := by
    rw [forward_inverse_eq, hF, Matrix.conjTranspose_one]
  have harg : -(Complex.I * ((δ : ℂ) / 2)) = ((-δ / 2 : ℝ) : ℂ) * Complex.I := by
    push_cast
    ring
  have hentry : rotZ δ 0 0 = Complex.exp (-(Complex.I * ((δ : ℂ) / 2))) := by
    simp [rotZ]
  rw [echo_amplitude, build_echo_circuit, hF, hFi, perturbation, Matrix.one_mul,
    Matrix.mul_one, mulVec_refState, hentry, harg, Complex.abs_exp_ofReal_mul_I]
  norm_num

/-- C10: the amplitude is an even function of the perturbation angle:
negating delta conjugate-transposes the echo matrix, which conjugates the
measured component without changing its magnitude. -/
theorem claim_C10_even_in_delta (θ δ : ℝ) :
    echo_amplitude θ (-δ) = echo_amplitude θ δ := by
  have h : build_echo_circuit θ (-δ) = (build_echo_circuit θ δ)ᴴ := by
    rw [build_echo_eq_spec, build_echo_eq_spec, echoMatrixSpec, echoMatrixSpec,
      Matrix.conjTranspose_mul, Matrix.conjTranspose_mul,
      Matrix.conjTranspose_conjTranspose, rotZ_conjTranspose, Matrix.mul_assoc]
  rw [echo_amplitude, echo_amplitude, h, mulVec_refState, mulVec_refState,
    Matrix.conjTranspose_apply, Complex.star_def, Complex.abs_conj]

end QuantumEcho
